import Mathlib

/-!
Verification of the CloudMart tagging dashboard core
(src/cloudmart_tagging_app.py): the row-repair ingestion pipeline
(`load_data`), the sidebar filter block, the compliance/cost
aggregations, and the Task 5 remediation (apply-changes) handler.

Python strings are modelled as `List Char`; `str.strip` as `trimChars`,
`str.split(sep)` as `splitOnChar`, the line-level surrounding-quote
removal as `stripLineQuotes`.  Cells of the loaded table are
`Cell.missing` (pandas NA/NaN), `Cell.str s` (a trimmed string), or
`Cell.num m e` (the value m / 10^e produced by the numeric coercion of
the MonthlyCostUSD column).
-/

namespace CloudTag

/-- Whitespace characters stripped by Python's `str.strip()`. -/
def isSpace (c : Char) : Bool :=
  decide (c = ' ') || decide (c = '\t') || decide (c = '\n') ||
  decide (c = '\r') || decide (c = '\x0b') || decide (c = '\x0c')

/-- Remove trailing whitespace (the right half of `str.strip()`). -/
def trimRightChars (cs : List Char) : List Char :=
  (cs.reverse.dropWhile isSpace).reverse

/-- Python `str.strip()`: remove leading and trailing whitespace. -/
def trimChars (cs : List Char) : List Char :=
  (trimRightChars cs).dropWhile isSpace

/-- Python `str.split(sep)` for a one-character separator: always returns
at least one (possibly empty) segment. -/
def splitOnChar (sep : Char) : List Char → List (List Char)
  | [] => [[]]
  | c :: rest =>
    match splitOnChar sep rest with
    | [] => [[]]
    | seg :: segs => if c = sep then [] :: seg :: segs else (c :: seg) :: segs

/-- Join segments with a separator (inverse of `splitOnChar` on
separator-free segments). -/
def intercalateChar (sep : Char) : List (List Char) → List Char
  | [] => []
  | [x] => x
  | x :: y :: rest => x ++ sep :: intercalateChar sep (y :: rest)

/-- `load_data`: `if line.startswith('"') and line.endswith('"'): line = line[1:-1]` —
strip one pair of enclosing double quotes from a whole line. -/
def stripLineQuotes (cs : List Char) : List Char :=
  if cs.head? = some '"' ∧ cs.getLast? = some '"' then (cs.drop 1).dropLast else cs

/-- The right-alignment repair of `load_data` (lines 61-75 of the source):
a short row keeps `fields[:-3]`, inserts `expected_cols - len(fields)` empty
strings, then keeps `fields[-3:]`; an over-long row is truncated.
Note `fields.take (fields.length - 3)` is Python's `fields[:-3]` (empty when
`len(fields) <= 3`) and `fields.drop (fields.length - 3)` is `fields[-3:]`
(the whole list when `len(fields) <= 3`). -/
def repairFields (expectedCols : Nat) (fields : List (List Char)) : List (List Char) :=
  if fields.length < expectedCols then
    fields.take (fields.length - 3)
      ++ List.replicate (expectedCols - fields.length) []
      ++ fields.drop (fields.length - 3)
  else if expectedCols < fields.length then
    fields.take expectedCols
  else
    fields

/-- Header parsing of `load_data`: strip the line, remove enclosing quotes,
split on commas, strip each name. -/
def parseHeaderChars (line : List Char) : List (List Char) :=
  (splitOnChar ',' (stripLineQuotes (trimChars line))).map trimChars

/-- Data-line parsing of `load_data`: strip the line, remove enclosing
quotes, split on commas, then repair to the header width. -/
def parseDataLine (expectedCols : Nat) (line : List Char) : List (List Char) :=
  repairFields expectedCols (splitOnChar ',' (stripLineQuotes (trimChars line)))

/-! ### Numeric coercion (`pd.to_numeric(..., errors='coerce')`)

A decimal literal is modelled as a pair `(m, e)` denoting `m / 10^e`,
keeping the written fraction digits so that printing is the exact
inverse of parsing. -/

def isDigitChar (c : Char) : Bool := decide ('0' ≤ c) && decide (c ≤ '9')

def digitChar (d : Nat) : Char := Char.ofNat (48 + d)

def charDigit (c : Char) : Nat := c.toNat - 48

/-- Big-endian digit string to `Nat`. -/
def digitsToNat (cs : List Char) : Nat :=
  cs.foldl (fun a c => a * 10 + charDigit c) 0

/-- Big-endian decimal digits, with structural fuel (correct whenever
`n ≤ fuel`). -/
def natToDigitsAux : Nat → Nat → List Char
  | 0, n => [digitChar n]
  | fuel + 1, n =>
    if n < 10 then [digitChar n]
    else natToDigitsAux fuel (n / 10) ++ [digitChar (n % 10)]

/-- Big-endian decimal digits of `n` (never empty). -/
def natToDigits (n : Nat) : List Char := natToDigitsAux n n

/-- Longest digit prefix and the remainder. -/
def spanDigits : List Char → List Char × List Char
  | [] => ([], [])
  | c :: cs =>
    if isDigitChar c then
      let p := spanDigits cs
      (c :: p.1, p.2)
    else ([], c :: cs)

/-- Unsigned decimal literal: digits, optionally with one decimal point;
at least one digit overall.  Returns the concatenated digits as a `Nat`
together with the number of fraction digits. -/
def parseUnsigned (cs : List Char) : Option (Nat × Nat) :=
  let p := spanDigits cs
  match p.2 with
  | [] => if p.1.isEmpty then none else some (digitsToNat p.1, 0)
  | c :: f =>
    if c = '.' then
      if (!p.1.isEmpty || !f.isEmpty) && f.all isDigitChar then
        some (digitsToNat (p.1 ++ f), f.length)
      else none
    else none

/-- Signed decimal literal, the model of `pd.to_numeric` on a trimmed
cell: the value is `m / 10^e` for a result `(m, e)`. -/
def parseNumeric (cs : List Char) : Option (Int × Nat) :=
  match cs with
  | [] => none
  | c :: rest =>
    if c = '-' then (parseUnsigned rest).map (fun p => (-(p.1 : Int), p.2))
    else if c = '+' then (parseUnsigned rest).map (fun p => ((p.1 : Int), p.2))
    else (parseUnsigned (c :: rest)).map (fun p => ((p.1 : Int), p.2))

/-- Digits of `n` left-padded with zeros to at least `e + 1` digits. -/
def paddedDigits (n e : Nat) : List Char :=
  let ds := natToDigits n
  if ds.length < e + 1 then List.replicate (e + 1 - ds.length) '0' ++ ds else ds

/-- Print an unsigned decimal with exactly `e` fraction digits. -/
def renderUnsigned (n e : Nat) : List Char :=
  let ds := paddedDigits n e
  if e = 0 then ds
  else ds.take (ds.length - e) ++ '.' :: ds.drop (ds.length - e)

/-- Print a signed decimal value `m / 10^e` (model of how the CSV export
writes the numeric MonthlyCostUSD column). -/
def renderNumeric (m : Int) (e : Nat) : List Char :=
  if m < 0 then '-' :: renderUnsigned m.natAbs e else renderUnsigned m.natAbs e

/-! ### The canonical table (typed loader) -/

/-- A cell of the canonical table: pandas NA, a trimmed string, or the
numeric value `m / 10^e` of a MonthlyCostUSD cell. -/
inductive Cell where
  | missing
  | str (s : List Char)
  | num (m : Int) (e : Nat)
deriving DecidableEq

/-- The canonical table: ordered column names plus rows of cells. -/
structure Table where
  headers : List (List Char)
  rows : List (List Cell)
deriving DecidableEq

def costName : List Char := String.data "MonthlyCostUSD"

/-- The typed loader applied to one field (lines 83-92 of the source):
strip whitespace, canonicalize the empty string to NA, and coerce the
MonthlyCostUSD column to a number (unparseable text becomes NA). -/
def loadCell (colName : List Char) (s : List Char) : Cell :=
  let t := trimChars s
  if t = [] then Cell.missing
  else if colName = costName then
    match parseNumeric t with
    | some p => Cell.num p.1 p.2
    | none => Cell.missing
  else Cell.str t

/-- `load_data` end to end: strip the content, split into lines, parse the
header from the first line, repair every later line to the header width,
then apply the typed loader cell by cell. -/
def loadChars (content : List Char) : Table :=
  let lines := splitOnChar '\n' (trimChars content)
  let headers := parseHeaderChars (lines.headD [])
  let rows := (lines.drop 1).map
    (fun line => List.zipWith loadCell headers (parseDataLine headers.length line))
  ⟨headers, rows⟩

/-- `load_data` on a Lean string. -/
def loadData (content : String) : Table := loadChars content.data

/-- How a cell is written back by `to_csv`: NA as the empty field, text
verbatim, numbers in plain decimal notation. -/
def renderCell : Cell → List Char
  | Cell.missing => []
  | Cell.str s => s
  | Cell.num m e => renderNumeric m e

/-- The `to_csv(index=False)` export (Task 5.3 / Task 3.5): header line,
one comma-joined line per row, each line terminated by a newline. -/
def exportChars (t : Table) : List Char :=
  intercalateChar '\n'
    (intercalateChar ',' t.headers :: t.rows.map (fun r => intercalateChar ',' (r.map renderCell)))
  ++ ['\n']

/-! ### Column access -/

def serviceName : List Char := String.data "Service"
def regionName : List Char := String.data "Region"
def deptName : List Char := String.data "Department"
def envName : List Char := String.data "Environment"
def taggedName : List Char := String.data "Tagged"
def projectName : List Char := String.data "Project"
def ownerName : List Char := String.data "Owner"
def yesVal : List Char := String.data "Yes"
def noVal : List Char := String.data "No"

/-- Position of a column name in the header list (first occurrence). -/
def colIdx (headers : List (List Char)) (name : List Char) : Option Nat :=
  match headers with
  | [] => none
  | h :: t => if h = name then some 0 else (colIdx t name).map (· + 1)

/-- The cell of `row` in the column called `name` (`row[name]`). -/
def getCell (headers : List (List Char)) (row : List Cell) (name : List Char) : Option Cell :=
  match colIdx headers name with
  | some i => row[i]?
  | none => none

/-- Overwrite the cell of `row` in the column called `name`
(`df.at[idx, name] = v`; a no-op if the column is absent). -/
def setCell (headers : List (List Char)) (row : List Cell) (name : List Char) (v : Cell) : List Cell :=
  match colIdx headers name with
  | some i => row.set i v
  | none => row

/-! ### Filter Engine (sidebar Apply Filters block, lines 168-184) -/

/-- One sidebar selection: `none` is the `'All'` choice. -/
structure FilterSel where
  service : Option (List Char)
  region : Option (List Char)
  department : Option (List Char)
  environment : Option (List Char)
  tagged : Option (List Char)
deriving DecidableEq

/-- `df[df[name] == v]` row test: a missing cell never matches. -/
def cellMatches (headers : List (List Char)) (row : List Cell) (name v : List Char) : Bool :=
  decide (getCell headers row name = some (Cell.str v))

/-- The Apply Filters block: successive boolean-mask filters, where the
Region/Department/Environment filters are additionally guarded by a
column-existence check (Service and Tagged are required columns). -/
def applyFilters (t : Table) (f : FilterSel) : List (List Cell) :=
  let r0 := t.rows
  let r1 := match f.service with
    | some v => r0.filter (fun row => cellMatches t.headers row serviceName v)
    | none => r0
  let r2 := match f.region with
    | some v =>
      if regionName ∈ t.headers then
        r1.filter (fun row => cellMatches t.headers row regionName v)
      else r1
    | none => r1
  let r3 := match f.department with
    | some v =>
      if deptName ∈ t.headers then
        r2.filter (fun row => cellMatches t.headers row deptName v)
      else r2
    | none => r2
  let r4 := match f.environment with
    | some v =>
      if envName ∈ t.headers then
        r3.filter (fun row => cellMatches t.headers row envName v)
      else r3
    | none => r3
  match f.tagged with
  | some v => r4.filter (fun row => cellMatches t.headers row taggedName v)
  | none => r4

/-- An unguarded active predicate (`'All'` matches everything). -/
def activeMatch (headers : List (List Char)) (row : List Cell) (name : List Char)
    (sel : Option (List Char)) : Bool :=
  match sel with
  | some v => cellMatches headers row name v
  | none => true

/-- A predicate guarded by column existence. -/
def guardedMatch (headers : List (List Char)) (row : List Cell) (name : List Char)
    (sel : Option (List Char)) : Bool :=
  match sel with
  | some v => if name ∈ headers then cellMatches headers row name v else true
  | none => true

/-- The conjunction of all active filter predicates for one row. -/
def conjPred (t : Table) (f : FilterSel) (row : List Cell) : Bool :=
  activeMatch t.headers row serviceName f.service &&
  guardedMatch t.headers row regionName f.region &&
  guardedMatch t.headers row deptName f.department &&
  guardedMatch t.headers row envName f.environment &&
  activeMatch t.headers row taggedName f.tagged

/-- Every sidebar selector on `'All'`. -/
def allAllSel : FilterSel := ⟨none, none, none, none, none⟩

/-! ### Compliance & Cost Aggregator -/

def cellIsMissing : Cell → Bool
  | Cell.missing => true
  | _ => false

/-- The numeric value a row contributes to a MonthlyCostUSD sum
(missing values are skipped by pandas `sum`, i.e. contribute 0). -/
def rowCost (headers : List (List Char)) (row : List Cell) : ℚ :=
  match getCell headers row costName with
  | some (Cell.num m e) => (m : ℚ) / (10 : ℚ) ^ e
  | _ => 0

/-- `df['MonthlyCostUSD'].sum()` over a view. -/
def totalCost (headers : List (List Char)) (rows : List (List Cell)) : ℚ :=
  (rows.map (rowCost headers)).sum

/-- `groupby('Tagged')['MonthlyCostUSD'].sum().get(v, 0)`. -/
def costByTag (headers : List (List Char)) (rows : List (List Cell)) (v : List Char) : ℚ :=
  totalCost headers (rows.filter (fun r => cellMatches headers r taggedName v))

def untaggedCost (headers : List (List Char)) (rows : List (List Cell)) : ℚ :=
  costByTag headers rows noVal

/-- Task 2.2: `(untagged_cost / total_cost) * 100 if total_cost > 0 else 0`. -/
def untaggedCostPct (headers : List (List Char)) (rows : List (List Cell)) : ℚ :=
  if 0 < totalCost headers rows then
    untaggedCost headers rows / totalCost headers rows * 100
  else 0

/-- `df['Tagged'].value_counts().get('No', 0)`. -/
def untaggedCount (headers : List (List Char)) (rows : List (List Cell)) : Nat :=
  (rows.filter (fun r => cellMatches headers r taggedName noVal)).length

/-- Task 1.5: `(untagged_count / total_resources) * 100 if total_resources > 0 else 0`. -/
def untaggedCountPct (headers : List (List Char)) (rows : List (List Cell)) : ℚ :=
  if 0 < rows.length then
    (untaggedCount headers rows : ℚ) / (rows.length : ℚ) * 100
  else 0

/-- Task 1.2: per-column missing count, `df[name].isnull().sum()`. -/
def missingCount (headers : List (List Char)) (rows : List (List Cell)) (name : List Char) : Nat :=
  (rows.filter (fun r =>
    match getCell headers r name with
    | some c => cellIsMissing c
    | none => true)).length

/-- Task 1.2: missing percentage, `(count / len(df) * 100) if len(df) > 0 else 0`
(the display rounding to two decimals is not modelled). -/
def missingPct (headers : List (List Char)) (rows : List (List Cell)) (name : List Char) : ℚ :=
  if 0 < rows.length then
    (missingCount headers rows name : ℚ) / (rows.length : ℚ) * 100
  else 0

/-! ### Remediation State Machine (Task 5.2 apply-changes handler) -/

/-- `pd.notna(row.get(name, None)) if name in row else True`: one
auto-tag gate field test from the apply-changes handler. -/
def fieldOk (headers : List (List Char)) (row : List Cell) (name : List Char) : Bool :=
  match colIdx headers name with
  | some i =>
    match row[i]? with
    | some c => !(cellIsMissing c)
    | none => false
  | none => true

/-- `has_dept and has_project and has_owner`: the auto-tag gate uses only
Department, Project and Owner. -/
def gateOk (headers : List (List Char)) (row : List Cell) : Bool :=
  fieldOk headers row deptName && fieldOk headers row projectName && fieldOk headers row ownerName

/-- Net effect of the apply-changes loop body on one edited row: all the
proposed values are written first, then `Tagged` is set to `"Yes"` when
the gate passes. -/
def appliedRow (headers : List (List Char)) (row : List Cell) : List Cell :=
  if gateOk headers row then setCell headers row taggedName (Cell.str yesVal) else row

/-- The Task 5.2 apply-changes handler: for every `(idx, row)` of the
edited batch (`edited_data.iterrows()`), write the whole proposed row
into the edited snapshot at `idx`, auto-tag it when the gate passes, and
count the gated rows (`changes_made`). -/
def applyChanges (headers : List (List Char)) :
    List (List Cell) → List (Nat × List Cell) → List (List Cell) × Nat
  | rows, [] => (rows, 0)
  | rows, b :: bs =>
    let res := applyChanges headers (rows.set b.1 (appliedRow headers b.2)) bs
    (res.1, (if gateOk headers b.2 then 1 else 0) + res.2)

/-- The apply-changes handler acting on the edited snapshot (its column
set is never touched; only row cells are assigned). -/
def applyChangesT (t : Table) (batch : List (Nat × List Cell)) : Table × Nat :=
  let res := applyChanges t.headers t.rows batch
  (⟨t.headers, res.1⟩, res.2)

/-! ### Well-formedness for the export/import round trip -/

/-- The first character, if any, is not whitespace. -/
def headOk (cs : List Char) : Bool :=
  match cs with
  | [] => true
  | c :: _ => !(isSpace c)

/-- The last character, if any, is not whitespace. -/
def lastOk (cs : List Char) : Bool := headOk cs.reverse

/-- A header name that survives the round trip verbatim: trimmed at both
ends and free of the separator, line and quote characters. -/
def headerWF (h : List Char) : Prop :=
  headOk h = true ∧ lastOk h = true ∧ '"' ∉ h ∧ ',' ∉ h ∧ '\n' ∉ h

instance (h : List Char) : Decidable (headerWF h) := by
  rw [headerWF]
  infer_instance

/-- A cell that survives the round trip in the column called `colName`:
missing cells always do; string cells must be non-empty, trimmed, free
of separator/line/quote characters, and sit outside the numeric
MonthlyCostUSD column; numeric cells must sit inside it. -/
def cellWF (colName : List Char) : Cell → Prop
  | Cell.missing => True
  | Cell.str s => s ≠ [] ∧ headOk s = true ∧ lastOk s = true ∧
      '"' ∉ s ∧ ',' ∉ s ∧ '\n' ∉ s ∧ colName ≠ costName
  | Cell.num _ _ => colName = costName

instance (colName : List Char) (c : Cell) : Decidable (cellWF colName c) := by
  cases c <;> simp only [cellWF] <;> infer_instance

/-- A canonically-loaded table the export writes back verbatim: at least
two columns, well-formed header names, full-width rows of well-formed
cells. -/
def WFTable (t : Table) : Prop :=
  2 ≤ t.headers.length ∧
  (∀ h ∈ t.headers, headerWF h) ∧
  (∀ r ∈ t.rows, r.length = t.headers.length ∧ ∀ p ∈ List.zip t.headers r, cellWF p.1 p.2)

instance (t : Table) : Decidable (WFTable t) := by
  rw [WFTable]
  infer_instance

/-- The Prop form of one gate-field test: the column exists in the row
and holds a non-missing value. -/
def fieldFilled (headers : List (List Char)) (row : List Cell) (name : List Char) : Prop :=
  ∃ c, getCell headers row name = some c ∧ cellIsMissing c = false

/-! ### Concrete fixtures used by witnesses -/

/-- Header of a small edited snapshot (gate columns and Tagged). -/
def exHeaders : List (List Char) := [deptName, projectName, ownerName, taggedName]

/-- One untagged row with all gate fields missing. -/
def exRow : List Cell := [Cell.missing, Cell.missing, Cell.missing, Cell.str noVal]

def exTable : Table := ⟨exHeaders, [exRow]⟩

/-- A proposed edit filling Department, Project and Owner. -/
def exEdit : List Cell :=
  [Cell.str (String.data "Eng"), Cell.str (String.data "Apollo"),
   Cell.str (String.data "jdoe"), Cell.str noVal]

def exBatch : List (Nat × List Cell) := [(0, exEdit)]

/-- A snapshot whose schema has none of the three gate columns. -/
def exHeaders2 : List (List Char) := [serviceName, taggedName]

def exTable2 : Table := ⟨exHeaders2, [[Cell.str (String.data "EC2"), Cell.str noVal]]⟩

def exBatch2 : List (Nat × List Cell) := [(0, [Cell.str (String.data "EC2"), Cell.str noVal])]

/-- A small canonical table (text column plus numeric cost column) used
to witness the export/import round trip. -/
def exTable3 : Table := ⟨[['A'], costName], [[Cell.str ['x'], Cell.num 525 2]]⟩

/-! ## Theorems -/

theorem dropWhile_eq_self_of_headOk (cs : List Char) (h : headOk cs = true) :
    cs.dropWhile isSpace = cs := by
  cases cs with
  | nil => rfl
  | cons c l =>
    simp only [headOk, Bool.not_eq_true'] at h
    simp [List.dropWhile_cons, h]

theorem trimChars_eq_self (cs : List Char) (h1 : headOk cs = true) (h2 : lastOk cs = true) :
    trimChars cs = cs := by
  rw [trimChars, trimRightChars, dropWhile_eq_self_of_headOk cs.reverse h2,
    List.reverse_reverse, dropWhile_eq_self_of_headOk cs h1]

theorem trimChars_append_newline (cs : List Char) :
    trimChars (cs ++ ['\n']) = trimChars cs := by
  rw [trimChars, trimChars, trimRightChars, trimRightChars, List.reverse_append]
  simp [List.dropWhile_cons, isSpace]

theorem splitOnChar_no_sep (sep : Char) (cs : List Char) (h : sep ∉ cs) :
    splitOnChar sep cs = [cs] := by
  induction cs with
  | nil => rfl
  | cons c l ih =>
    simp only [List.mem_cons] at h
    push_neg at h
    rw [splitOnChar, ih h.2]
    simp [Ne.symm h.1]

theorem splitOnChar_ne_nil (sep : Char) (cs : List Char) : splitOnChar sep cs ≠ [] := by
  induction cs with
  | nil => simp [splitOnChar]
  | cons c l ih =>
    rw [splitOnChar]
    rcases hs : splitOnChar sep l with _ | ⟨seg, segs⟩
    · exact absurd hs ih
    · by_cases hc : c = sep <;> simp [hc]

theorem splitOnChar_append_cons (sep : Char) (x r : List Char) (h : sep ∉ x) :
    splitOnChar sep (x ++ sep :: r) = x :: splitOnChar sep r := by
  induction x with
  | nil =>
    rw [List.nil_append, splitOnChar]
    rcases hs : splitOnChar sep r with _ | ⟨seg, segs⟩
    · exact absurd hs (splitOnChar_ne_nil sep r)
    · simp
  | cons c l ih =>
    simp only [List.mem_cons] at h
    push_neg at h
    rw [List.cons_append, splitOnChar, ih h.2]
    simp [Ne.symm h.1]

theorem splitOnChar_intercalate (sep : Char) :
    ∀ segs : List (List Char), segs ≠ [] → (∀ seg ∈ segs, sep ∉ seg) →
      splitOnChar sep (intercalateChar sep segs) = segs := by
  intro segs
  induction segs with
  | nil => intro h; cases h rfl
  | cons x rest ih =>
    intro _ hall
    cases rest with
    | nil =>
      rw [intercalateChar, splitOnChar_no_sep sep x (hall x (by simp))]
    | cons y rest2 =>
      rw [intercalateChar, splitOnChar_append_cons sep x _ (hall x (by simp))]
      rw [ih (by simp) (fun seg hseg => hall seg (List.mem_cons_of_mem x hseg))]

theorem not_mem_intercalate (sep c : Char) (hc : c ≠ sep) :
    ∀ segs : List (List Char), (∀ seg ∈ segs, c ∉ seg) →
      c ∉ intercalateChar sep segs := by
  intro segs
  induction segs with
  | nil => intro _; simp [intercalateChar]
  | cons x rest ih =>
    intro hall
    cases rest with
    | nil =>
      rw [intercalateChar]
      exact hall x (by simp)
    | cons y rest2 =>
      rw [intercalateChar, List.mem_append]
      push_neg
      refine ⟨hall x (by simp), ?_⟩
      rw [List.mem_cons]
      push_neg
      exact ⟨hc, ih (fun seg hseg => hall seg (List.mem_cons_of_mem x hseg))⟩

theorem headOk_intercalate (sep : Char) (hsep : isSpace sep = false) (x : List Char)
    (rest : List (List Char)) (hx : headOk x = true) :
    headOk (intercalateChar sep (x :: rest)) = true := by
  cases rest with
  | nil => exact hx
  | cons y rest2 =>
    rw [intercalateChar]
    cases x with
    | nil => simp [headOk, hsep]
    | cons c l => exact hx

theorem headOk_append (a b : List Char) (ha : a ≠ []) : headOk (a ++ b) = headOk a := by
  cases a with
  | nil => cases ha rfl
  | cons c l => rfl

theorem lastOk_cons (c : Char) (cs : List Char) (h : cs ≠ []) :
    lastOk (c :: cs) = lastOk cs := by
  rw [lastOk, lastOk, List.reverse_cons, headOk_append]
  simp [h]

theorem lastOk_append (a b : List Char) (hb : b ≠ []) : lastOk (a ++ b) = lastOk b := by
  rw [lastOk, lastOk, List.reverse_append, headOk_append]
  simp [hb]

theorem lastOk_intercalate (sep : Char) (hsep : isSpace sep = false) :
    ∀ segs : List (List Char), segs ≠ [] → (∀ seg ∈ segs, lastOk seg = true) →
      lastOk (intercalateChar sep segs) = true := by
  intro segs
  induction segs with
  | nil => intro h; cases h rfl
  | cons x rest ih =>
    intro _ hall
    cases rest with
    | nil =>
      rw [intercalateChar]
      exact hall x (by simp)
    | cons y rest2 =>
      rw [intercalateChar, lastOk_append x _ (by simp)]
      rcases hI : intercalateChar sep (y :: rest2) with _ | ⟨c, l⟩
      · simp [lastOk, headOk, hsep]
      · rw [lastOk_cons sep _ (by simp)]
        rw [← hI]
        exact ih (by simp) (fun seg hseg => hall seg (List.mem_cons_of_mem x hseg))

theorem stripLineQuotes_id (cs : List Char) (h : '"' ∉ cs) :
    stripLineQuotes cs = cs := by
  rcases cs with _ | ⟨c, l⟩
  · rfl
  · rw [stripLineQuotes, if_neg]
    intro hcon
    have hc := hcon.1
    simp only [List.head?_cons, Option.some_inj] at hc
    apply h
    rw [List.mem_cons]
    exact Or.inl hc.symm

theorem colIdx_eq_none_iff (hs : List (List Char)) (name : List Char) :
    colIdx hs name = none ↔ name ∉ hs := by
  induction hs with
  | nil => simp [colIdx]
  | cons h t ih =>
    by_cases hh : h = name
    · subst hh
      simp [colIdx]
    · rw [colIdx, if_neg hh, Option.map_eq_none', ih, List.mem_cons]
      constructor
      · intro hnt hor
        rcases hor with hne | hmt
        · exact hh hne.symm
        · exact hnt hmt
      · intro hall hmt
        exact hall (Or.inr hmt)

theorem colIdx_lt_length (hs : List (List Char)) (name : List Char) (i : Nat)
    (h : colIdx hs name = some i) : i < hs.length := by
  induction hs generalizing i with
  | nil => simp [colIdx] at h
  | cons x t ih =>
    by_cases hx : x = name
    · rw [colIdx, if_pos hx] at h
      have : i = 0 := by
        injection h with h0
        omega
      simp [this]
    · rw [colIdx, if_neg hx, Option.map_eq_some'] at h
      obtain ⟨j, hj, hji⟩ := h
      have := ih j hj
      simp only [List.length_cons]
      omega

theorem colIdx_isSome_of_mem (hs : List (List Char)) (name : List Char) (h : name ∈ hs) :
    ∃ i, colIdx hs name = some i := by
  rcases hi : colIdx hs name with _ | i
  · exact absurd ((colIdx_eq_none_iff hs name).mp hi) (by simp [h])
  · exact ⟨i, rfl⟩

theorem getCell_setCell_self (hs : List (List Char)) (row : List Cell) (name : List Char)
    (v : Cell) (hmem : name ∈ hs) (hlen : row.length = hs.length) :
    getCell hs (setCell hs row name v) name = some v := by
  obtain ⟨i, hi⟩ := colIdx_isSome_of_mem hs name hmem
  have hil : i < row.length := by
    rw [hlen]
    exact colIdx_lt_length hs name i hi
  simp [getCell, setCell, hi]
  rw [List.getElem?_set_self hil]

/-- The apply-changes loop never adds or removes rows. -/
theorem applyChanges_headers_len (hs : List (List Char)) (rows : List (List Cell))
    (batch : List (Nat × List Cell)) :
    ((applyChanges hs rows batch).1).length = rows.length := by
  induction batch generalizing rows with
  | nil => rfl
  | cons b bs ih => simp [applyChanges, ih]

/-- Rows not named by the batch are untouched. -/
theorem applyChanges_get_not_mem (hs : List (List Char)) (rows : List (List Cell))
    (batch : List (Nat × List Cell)) (i : Nat)
    (hi : i ∉ batch.map Prod.fst) :
    ((applyChanges hs rows batch).1)[i]? = rows[i]? := by
  induction batch generalizing rows with
  | nil => rfl
  | cons b bs ih =>
    simp only [List.map_cons, List.mem_cons] at hi
    push_neg at hi
    show ((applyChanges hs (rows.set b.1 (appliedRow hs b.2)) bs).1)[i]? = rows[i]?
    rw [ih _ hi.2, List.getElem?_set_ne hi.1.symm]

/-- A row named once by the batch ends as `appliedRow` of its proposed
row. -/
theorem applyChanges_get_mem (hs : List (List Char)) (batch : List (Nat × List Cell))
    (idx : Nat) (r : List Cell)
    (hnd : (batch.map Prod.fst).Nodup) (hmem : (idx, r) ∈ batch) :
    ∀ rows : List (List Cell), idx < rows.length →
      ((applyChanges hs rows batch).1)[idx]? = some (appliedRow hs r) := by
  induction batch with
  | nil => cases hmem
  | cons b bs ih =>
    intro rows hlen
    simp only [List.map_cons, List.nodup_cons] at hnd
    rcases b with ⟨bi, br⟩
    rcases List.mem_cons.mp hmem with heq | htail
    · injection heq with h1 h2
      subst h1
      subst h2
      show ((applyChanges hs (rows.set idx (appliedRow hs r)) bs).1)[idx]? = _
      rw [applyChanges_get_not_mem hs _ bs idx hnd.1]
      rw [List.getElem?_set_self hlen]
    · show ((applyChanges hs (rows.set bi (appliedRow hs br)) bs).1)[idx]? = _
      exact ih hnd.2 htail _ (by simpa using hlen)

/-- `changes_made` counts exactly the gate-passing batch rows. -/
theorem applyChanges_count (hs : List (List Char)) (rows : List (List Cell))
    (batch : List (Nat × List Cell)) :
    (applyChanges hs rows batch).2 = (batch.filter (fun b => gateOk hs b.2)).length := by
  induction batch generalizing rows with
  | nil => rfl
  | cons b bs ih =>
    by_cases h : gateOk hs b.2 <;>
      simp [applyChanges, h, ih, List.filter_cons, Nat.add_comm]

theorem fieldOk_iff (hs : List (List Char)) (row : List Cell) (name : List Char)
    (hmem : name ∈ hs) :
    fieldOk hs row name = true ↔ fieldFilled hs row name := by
  obtain ⟨i, hi⟩ := colIdx_isSome_of_mem hs name hmem
  rcases hri : row[i]? with _ | c
  · simp [fieldOk, fieldFilled, getCell, hi, hri]
  · simp [fieldOk, fieldFilled, getCell, hi, hri, Bool.not_eq_true']

theorem gateOk_iff (hs : List (List Char)) (row : List Cell)
    (hD : deptName ∈ hs) (hP : projectName ∈ hs) (hO : ownerName ∈ hs) :
    gateOk hs row = true ↔
      (fieldFilled hs row deptName ∧ fieldFilled hs row projectName ∧
       fieldFilled hs row ownerName) := by
  rw [gateOk, Bool.and_eq_true, Bool.and_eq_true, fieldOk_iff hs row deptName hD,
    fieldOk_iff hs row projectName hP, fieldOk_iff hs row ownerName hO, and_assoc]

/-- Counting by `p` cannot grow under a pointwise implication. -/
theorem countP_le_pointwise {α : Type} (p : α → Bool) :
    ∀ a b : List α, a.length = b.length →
      (∀ (i : Nat) (ca cb : α), a[i]? = some ca → b[i]? = some cb → p cb = true → p ca = true) →
      b.countP p ≤ a.countP p := by
  intro a
  induction a with
  | nil =>
    intro b hl _
    rw [List.length_nil] at hl
    rw [List.length_eq_zero.mp hl.symm]
  | cons x xs ih =>
    intro b hl hp
    cases b with
    | nil => simp [List.countP_nil]
    | cons y ys =>
      have h0 := hp 0 x y (by simp) (by simp)
      have hrest := ih ys (by simpa using hl)
        (fun i ca cb h1 h2 => hp (i + 1) ca cb (by simpa using h1) (by simpa using h2))
      rw [List.countP_cons, List.countP_cons]
      by_cases hy : p y = true
      · have hx := h0 hy
        simp only [hx, hy, if_true]
        omega
      · rw [Bool.not_eq_true] at hy
        simp only [hy, Bool.false_eq_true, if_false]
        split <;> omega

/-- C1: for a data line splitting into `fields` with
`3 <= len(fields) < N`, the repair keeps `fields[:-3]`, inserts
`N - len(fields)` empty strings, appends the last 3 fields, and the
result has exactly `N` fields. -/
theorem claimC1 (expectedCols : Nat) (fields : List (List Char))
    (h3 : 3 ≤ fields.length) (hlt : fields.length < expectedCols) :
    repairFields expectedCols fields =
      fields.take (fields.length - 3)
        ++ List.replicate (expectedCols - fields.length) []
        ++ fields.drop (fields.length - 3) ∧
    (fields.drop (fields.length - 3)).length = 3 ∧
    (repairFields expectedCols fields).length = expectedCols := by
  refine ⟨by simp [repairFields, hlt], ?_, ?_⟩
  · simp only [List.length_drop]
    omega
  · simp only [repairFields, hlt, if_true, List.length_append, List.length_take,
      List.length_replicate, List.length_drop, if_pos]
    omega

theorem claimC1_witness :
    repairFields 6 [['a'], ['b'], ['c'], ['d']] =
      [['a'], ['b'], ['c'], ['d']].take ([['a'], ['b'], ['c'], ['d']].length - 3)
        ++ List.replicate (6 - [['a'], ['b'], ['c'], ['d']].length) []
        ++ [['a'], ['b'], ['c'], ['d']].drop ([['a'], ['b'], ['c'], ['d']].length - 3) ∧
    ([['a'], ['b'], ['c'], ['d']].drop ([['a'], ['b'], ['c'], ['d']].length - 3)).length = 3 ∧
    (repairFields 6 [['a'], ['b'], ['c'], ['d']]).length = 6 :=
  claimC1 6 [['a'], ['b'], ['c'], ['d']] (by decide) (by decide)

/-- C3 (counterexample): the claim says the repaired row for header
`A,B,C,D,E` and data line `v1,v4,v5` is `[v1, "", "", v4, v5]`; the
parser actually produces something different, because `fields[:-3]` is
empty for a 3-field row. -/
theorem claimC3_counterexample :
    parseDataLine 5 (String.data "v1,v4,v5") ≠
      [String.data "v1", [], [], String.data "v4", String.data "v5"] := by decide

/-- C3 (amended): with header `A,B,C,D,E` and data line `v1,v4,v5`, all
three given fields are treated as the trailing guaranteed fields, so the
repaired row is `["", "", v1, v4, v5]`: the synthetic empty fields occupy
positions A and B (the 1st and 2nd positions), not B and C, and not the
end of the row. -/
theorem claimC3 :
    parseDataLine 5 (String.data "v1,v4,v5") =
      [[], [], String.data "v1", String.data "v4", String.data "v5"] ∧
    (loadData "A,B,C,D,E\nv1,v4,v5").rows =
      [[Cell.missing, Cell.missing, Cell.str (String.data "v1"),
        Cell.str (String.data "v4"), Cell.str (String.data "v5")]] := by decide

/-- C4 (counterexample): the claim says a data line with fewer than 3
fields aborts ingestion with no table produced; `load_data` actually
repairs such a line to full width (Python's `fields[:-3]` is empty, not
an error) and produces a complete table. -/
theorem claimC4_counterexample :
    loadData "A,B,C,D,E\na,b" =
      ⟨[String.data "A", String.data "B", String.data "C", String.data "D", String.data "E"],
       [[Cell.missing, Cell.missing, Cell.missing,
         Cell.str (String.data "a"), Cell.str (String.data "b")]]⟩ := by decide

/-- C4 (amended): a data line with fewer than 3 fields (and fewer than
`N`) is not an error: all its fields are treated as trailing fields and
`N - len(fields)` empty strings are prepended, yielding exactly `N`
fields, and ingestion succeeds for the whole file. -/
theorem claimC4 (expectedCols : Nat) (fields : List (List Char))
    (h3 : fields.length < 3) (hlt : fields.length < expectedCols) :
    repairFields expectedCols fields =
      List.replicate (expectedCols - fields.length) [] ++ fields ∧
    (repairFields expectedCols fields).length = expectedCols := by
  have hz : fields.length - 3 = 0 := by omega
  constructor
  · simp [repairFields, hlt, hz]
  · simp only [repairFields, hlt, if_true, List.length_append, List.length_take,
      List.length_replicate, List.length_drop, if_pos]
    omega

theorem claimC4_witness :
    repairFields 5 [['a'], ['b']] = List.replicate (5 - [['a'], ['b']].length) [] ++ [['a'], ['b']] ∧
    (repairFields 5 [['a'], ['b']]).length = 5 :=
  claimC4 5 [['a'], ['b']] (by decide) (by decide)

/-- Two successive boolean-mask filters equal one filter by the
conjunction. -/
theorem filterTwice {α : Type} (p q : α → Bool) (l : List α) :
    (l.filter p).filter q = l.filter (fun a => p a && q a) := by
  induction l with
  | nil => rfl
  | cons x xs ih =>
    by_cases hp : p x <;> by_cases hq : q x <;>
      simp [List.filter_cons, hp, hq, ih]

/-- C8: the sidebar filter block returns exactly the subsequence of rows
satisfying the conjunction of all active (non-`'All'`) exact-match
predicates, in original order (it is a chain of `List.filter`s, which by
construction never mutates the source rows), and with every selector on
`'All'` it returns the rows unchanged.  The `Service` and `Tagged`
columns are required columns of the app, hence the membership
hypotheses. -/
theorem claimC8 (t : Table) (f : FilterSel)
    (hS : serviceName ∈ t.headers) (hT : taggedName ∈ t.headers) :
    applyFilters t f = t.rows.filter (fun row => conjPred t f row) ∧
    applyFilters t allAllSel = t.rows := by
  refine ⟨?_, rfl⟩
  by_cases hR : regionName ∈ t.headers <;>
  by_cases hD : deptName ∈ t.headers <;>
  by_cases hE : envName ∈ t.headers <;>
  rcases f with ⟨s, r, d, e, g⟩ <;>
  cases s <;> cases r <;> cases d <;> cases e <;> cases g <;>
    simp [applyFilters, conjPred, activeMatch, guardedMatch, hR, hD, hE, filterTwice,
      Bool.and_assoc, Bool.and_comm, Bool.and_left_comm]

theorem claimC8_witness :
    applyFilters ⟨[serviceName, taggedName], [[Cell.str (String.data "EC2"), Cell.str noVal]]⟩
        ⟨some (String.data "EC2"), none, none, none, some yesVal⟩ =
      ([[Cell.str (String.data "EC2"), Cell.str noVal]] : List (List Cell)).filter
        (fun row => conjPred ⟨[serviceName, taggedName], [[Cell.str (String.data "EC2"), Cell.str noVal]]⟩
          ⟨some (String.data "EC2"), none, none, none, some yesVal⟩ row) ∧
    applyFilters ⟨[serviceName, taggedName], [[Cell.str (String.data "EC2"), Cell.str noVal]]⟩
        allAllSel =
      [[Cell.str (String.data "EC2"), Cell.str noVal]] :=
  claimC8 ⟨[serviceName, taggedName], [[Cell.str (String.data "EC2"), Cell.str noVal]]⟩
    ⟨some (String.data "EC2"), none, none, none, some yesVal⟩ (by decide) (by decide)

/-- C9 (counterexample): the claim says the untagged-cost percentage
equals the ratio whenever the total cost is nonzero, but the code tests
`total_cost > 0`, so a table with a single untagged row of cost `-5`
(total cost `-5`, nonzero) yields 0 from the code while the claimed
ratio is 100. -/
theorem claimC9_counterexample :
    totalCost [costName, taggedName] [[Cell.num (-5) 0, Cell.str noVal]] ≠ 0 ∧
    untaggedCostPct [costName, taggedName] [[Cell.num (-5) 0, Cell.str noVal]] ≠
      untaggedCost [costName, taggedName] [[Cell.num (-5) 0, Cell.str noVal]] /
        totalCost [costName, taggedName] [[Cell.num (-5) 0, Cell.str noVal]] * 100 := by
  constructor <;>
    simp [untaggedCostPct, untaggedCost, costByTag, totalCost, rowCost, getCell, colIdx,
      cellMatches, costName, taggedName, noVal]

/-- C9 (amended): the untagged-cost percentage satisfies
`pct * total = untagged * 100` when the total cost is positive and is 0
when the total cost is not positive (in particular when it is 0); and on
a view with zero rows every aggregation is total and returns 0 (no
division-by-zero error is possible). -/
theorem claimC9 (headers : List (List Char)) (rows : List (List Cell)) :
    (0 < totalCost headers rows →
      untaggedCostPct headers rows * totalCost headers rows = untaggedCost headers rows * 100) ∧
    (totalCost headers rows ≤ 0 → untaggedCostPct headers rows = 0) ∧
    (rows = [] →
      untaggedCostPct headers rows = 0 ∧ untaggedCountPct headers rows = 0 ∧
      totalCost headers rows = 0 ∧ costByTag headers rows yesVal = 0 ∧
      untaggedCount headers rows = 0 ∧ ∀ name, missingPct headers rows name = 0) := by
  refine ⟨?_, ?_, ?_⟩
  · intro h
    have hne : totalCost headers rows ≠ 0 := ne_of_gt h
    rw [untaggedCostPct, if_pos h]
    field_simp
  · intro h
    rw [untaggedCostPct, if_neg (not_lt.mpr h)]
  · rintro rfl
    simp [untaggedCostPct, untaggedCountPct, totalCost, costByTag,
      untaggedCount, missingPct, missingCount]

theorem claimC9_witness :
    untaggedCostPct [costName, taggedName] [[Cell.num 5 0, Cell.str noVal]] *
        totalCost [costName, taggedName] [[Cell.num 5 0, Cell.str noVal]] =
      untaggedCost [costName, taggedName] [[Cell.num 5 0, Cell.str noVal]] * 100 ∧
    untaggedCostPct [costName, taggedName] ([] : List (List Cell)) = 0 :=
  ⟨(claimC9 [costName, taggedName] [[Cell.num 5 0, Cell.str noVal]]).1
      (by simp [totalCost, rowCost, getCell, colIdx, costName, taggedName]),
   ((claimC9 [costName, taggedName] ([] : List (List Cell))).2.2 rfl).1⟩

/-- C2: after the apply-changes handler writes all proposed values of a
batch row, that row's `Tagged` is `"Yes"` iff its Department, Project
and Owner fields are all non-missing (Environment and CostCenter do not
appear in the gate); a row with any of the three missing keeps
`Tagged = "No"`; and the reported count equals the number of
gate-passing (i.e. transitioned) batch rows. -/
theorem claimC2 (t : Table) (batch : List (Nat × List Cell)) (idx : Nat) (r : List Cell)
    (hD : deptName ∈ t.headers) (hP : projectName ∈ t.headers) (hO : ownerName ∈ t.headers)
    (hT : taggedName ∈ t.headers)
    (hnd : (batch.map Prod.fst).Nodup) (hmem : (idx, r) ∈ batch)
    (hidx : idx < t.rows.length) (hlen : r.length = t.headers.length)
    (hNo : getCell t.headers r taggedName = some (Cell.str noVal)) :
    ∃ row2, (applyChangesT t batch).1.rows[idx]? = some row2 ∧
      (getCell t.headers row2 taggedName = some (Cell.str yesVal) ↔
        (fieldFilled t.headers r deptName ∧ fieldFilled t.headers r projectName ∧
         fieldFilled t.headers r ownerName)) ∧
      (¬ (fieldFilled t.headers r deptName ∧ fieldFilled t.headers r projectName ∧
          fieldFilled t.headers r ownerName) →
        getCell t.headers row2 taggedName = some (Cell.str noVal)) ∧
      (applyChangesT t batch).2 = (batch.filter (fun b => gateOk t.headers b.2)).length := by
  refine ⟨appliedRow t.headers r,
    applyChanges_get_mem t.headers batch idx r hnd hmem t.rows hidx, ?_, ?_,
    applyChanges_count t.headers t.rows batch⟩
  · by_cases hg : gateOk t.headers r
    · rw [appliedRow, if_pos hg, getCell_setCell_self t.headers r taggedName _ hT hlen]
      simp only [true_iff, iff_true]
      exact (gateOk_iff t.headers r hD hP hO).mp hg
    · rw [appliedRow, if_neg hg, hNo]
      constructor
      · intro hcon
        exact absurd hcon (by decide)
      · intro hfill
        exact absurd ((gateOk_iff t.headers r hD hP hO).mpr hfill) hg
  · intro hnfill
    have hg : gateOk t.headers r = false := by
      rcases Bool.eq_false_or_eq_true (gateOk t.headers r) with h | h
      · exact absurd ((gateOk_iff t.headers r hD hP hO).mp h) hnfill
      · exact h
    rw [appliedRow, if_neg (by simp [hg]), hNo]

theorem claimC2_witness :
    ∃ row2, (applyChangesT exTable exBatch).1.rows[0]? = some row2 ∧
      (getCell exTable.headers row2 taggedName = some (Cell.str yesVal) ↔
        (fieldFilled exTable.headers exEdit deptName ∧
         fieldFilled exTable.headers exEdit projectName ∧
         fieldFilled exTable.headers exEdit ownerName)) ∧
      (¬ (fieldFilled exTable.headers exEdit deptName ∧
          fieldFilled exTable.headers exEdit projectName ∧
          fieldFilled exTable.headers exEdit ownerName) →
        getCell exTable.headers row2 taggedName = some (Cell.str noVal)) ∧
      (applyChangesT exTable exBatch).2 =
        (exBatch.filter (fun b => gateOk exTable.headers b.2)).length :=
  claimC2 exTable exBatch 0 exEdit (by decide) (by decide) (by decide) (by decide)
    (by decide) (by decide) (by decide) (by decide) (by decide)

/-- C5: the apply-changes handler preserves the column set and the row
count of the edited snapshot, and rows not named by the batch are
untouched — only field values (and the Tagged flag) of existing rows
change.  The hypothesis records what the app guarantees: batch row
identities exist in the snapshot and proposed rows have full width. -/
theorem claimC5 (t : Table) (batch : List (Nat × List Cell))
    (hb : ∀ b ∈ batch, b.1 < t.rows.length ∧ b.2.length = t.headers.length) :
    (applyChangesT t batch).1.headers = t.headers ∧
    (applyChangesT t batch).1.rows.length = t.rows.length ∧
    (∀ i, i ∉ batch.map Prod.fst → (applyChangesT t batch).1.rows[i]? = t.rows[i]?) :=
  ⟨rfl, applyChanges_headers_len t.headers t.rows batch,
   fun i hi => applyChanges_get_not_mem t.headers t.rows batch i hi⟩

theorem claimC5_witness :
    (applyChangesT exTable exBatch).1.headers = exTable.headers ∧
    (applyChangesT exTable exBatch).1.rows.length = exTable.rows.length ∧
    (∀ i, i ∉ exBatch.map Prod.fst →
      (applyChangesT exTable exBatch).1.rows[i]? = exTable.rows[i]?) :=
  claimC5 exTable exBatch (by decide)

/-- C6: one apply operation never decreases tagging: the untagged count
of the edited snapshot is non-increasing, and any row currently tagged
`"Yes"` is left entirely unchanged (the batch consists of currently
untagged rows, as the hypotheses record, matching the
`Tagged == 'No'` mask and the disabled `Tagged` editor column).
Monotonicity across a whole session follows by chaining this over
successive applies. -/
theorem claimC6 (t : Table) (batch : List (Nat × List Cell))
    (hT : taggedName ∈ t.headers)
    (hnd : (batch.map Prod.fst).Nodup)
    (hb : ∀ b ∈ batch, b.1 < t.rows.length ∧ b.2.length = t.headers.length ∧
      getCell t.headers b.2 taggedName = some (Cell.str noVal) ∧
      getCell t.headers (t.rows.getD b.1 []) taggedName = some (Cell.str noVal)) :
    untaggedCount t.headers (applyChangesT t batch).1.rows ≤ untaggedCount t.headers t.rows ∧
    (∀ (i : Nat) (cur : List Cell), t.rows[i]? = some cur →
      getCell t.headers cur taggedName = some (Cell.str yesVal) →
      (applyChangesT t batch).1.rows[i]? = some cur) := by
  constructor
  · rw [untaggedCount, untaggedCount, ← List.countP_eq_length_filter,
      ← List.countP_eq_length_filter]
    apply countP_le_pointwise _ t.rows _ (applyChanges_headers_len t.headers t.rows batch).symm
    intro i ca cb h1 h2 hp
    by_cases hi : i ∈ batch.map Prod.fst
    · obtain ⟨b, hbmem, hbi⟩ := List.mem_map.mp hi
      have h4 := (hb b hbmem).2.2.2
      rw [hbi] at h4
      have hca : t.rows.getD i [] = ca := by
        rw [List.getD_eq_getElem?_getD, h1]
        rfl
      rw [hca] at h4
      simp [cellMatches, h4]
    · rw [applyChanges_get_not_mem t.headers t.rows batch i hi, h1] at h2
      injection h2 with h2
      rw [h2]
      exact hp
  · intro i cur h1 hyes
    have hi : i ∉ batch.map Prod.fst := by
      intro hi
      obtain ⟨b, hbmem, hbi⟩ := List.mem_map.mp hi
      have h4 := (hb b hbmem).2.2.2
      rw [hbi] at h4
      have hcur : t.rows.getD i [] = cur := by
        rw [List.getD_eq_getElem?_getD, h1]
        rfl
      rw [hcur, hyes] at h4
      exact absurd h4 (by decide)
    show (applyChanges t.headers t.rows batch).1[i]? = some cur
    rw [applyChanges_get_not_mem t.headers t.rows batch i hi, h1]

theorem claimC6_witness :
    untaggedCount exTable.headers (applyChangesT exTable exBatch).1.rows ≤
      untaggedCount exTable.headers exTable.rows ∧
    (∀ (i : Nat) (cur : List Cell), exTable.rows[i]? = some cur →
      getCell exTable.headers cur taggedName = some (Cell.str yesVal) →
      (applyChangesT exTable exBatch).1.rows[i]? = some cur) :=
  claimC6 exTable exBatch (by decide) (by decide) (by decide)

/-- C10: each gate field whose column is absent from the schema counts
as satisfied (`if 'Department' in row else True`); with none of the
three gate columns present, every batch row is marked `Tagged = "Yes"`
and the reported count is the whole batch size. -/
theorem claimC10 (t : Table) (batch : List (Nat × List Cell))
    (hD : deptName ∉ t.headers) (hP : projectName ∉ t.headers) (hO : ownerName ∉ t.headers)
    (hT : taggedName ∈ t.headers)
    (hnd : (batch.map Prod.fst).Nodup)
    (hb : ∀ b ∈ batch, b.1 < t.rows.length ∧ b.2.length = t.headers.length) :
    (∀ (idx : Nat) (r : List Cell), (idx, r) ∈ batch →
      (applyChangesT t batch).1.rows[idx]? =
        some (setCell t.headers r taggedName (Cell.str yesVal)) ∧
      getCell t.headers (setCell t.headers r taggedName (Cell.str yesVal)) taggedName =
        some (Cell.str yesVal)) ∧
    (applyChangesT t batch).2 = batch.length := by
  have hgate : ∀ row : List Cell, gateOk t.headers row = true := by
    intro row
    simp [gateOk, fieldOk, (colIdx_eq_none_iff t.headers deptName).mpr hD,
      (colIdx_eq_none_iff t.headers projectName).mpr hP,
      (colIdx_eq_none_iff t.headers ownerName).mpr hO]
  constructor
  · intro idx r hmem
    have h1 := applyChanges_get_mem t.headers batch idx r hnd hmem t.rows (hb (idx, r) hmem).1
    rw [appliedRow, if_pos (hgate r)] at h1
    exact ⟨h1, getCell_setCell_self t.headers r taggedName _ hT (hb (idx, r) hmem).2⟩
  · show (applyChanges t.headers t.rows batch).2 = batch.length
    rw [applyChanges_count, List.filter_eq_self.mpr (fun b _ => hgate b.2)]

theorem claimC10_witness :
    (∀ (idx : Nat) (r : List Cell), (idx, r) ∈ exBatch2 →
      (applyChangesT exTable2 exBatch2).1.rows[idx]? =
        some (setCell exTable2.headers r taggedName (Cell.str yesVal)) ∧
      getCell exTable2.headers (setCell exTable2.headers r taggedName (Cell.str yesVal))
          taggedName =
        some (Cell.str yesVal)) ∧
    (applyChangesT exTable2 exBatch2).2 = exBatch2.length :=
  claimC10 exTable2 exBatch2 (by decide) (by decide) (by decide) (by decide)
    (by decide) (by decide)

theorem charDigit_digitChar (d : Nat) (h : d < 10) : charDigit (digitChar d) = d := by
  interval_cases d <;> decide

theorem isDigitChar_digitChar (d : Nat) (h : d < 10) : isDigitChar (digitChar d) = true := by
  interval_cases d <;> decide

theorem digitsToNat_append_one (l : List Char) (c : Char) :
    digitsToNat (l ++ [c]) = 10 * digitsToNat l + charDigit c := by
  rw [digitsToNat, digitsToNat, List.foldl_append]
  simp [Nat.mul_comm]

theorem natToDigitsAux_digits (fuel : Nat) :
    ∀ n : Nat, n ≤ fuel → ∀ c ∈ natToDigitsAux fuel n, isDigitChar c = true := by
  induction fuel with
  | zero =>
    intro n h c hc
    have hn : n = 0 := Nat.le_zero.mp h
    subst hn
    simp only [natToDigitsAux, List.mem_singleton] at hc
    rw [hc]
    decide
  | succ fuel ih =>
    intro n h c hc
    rw [natToDigitsAux] at hc
    by_cases hn : n < 10
    · rw [if_pos hn] at hc
      simp only [List.mem_singleton] at hc
      rw [hc]
      exact isDigitChar_digitChar n hn
    · rw [if_neg hn] at hc
      rcases List.mem_append.mp hc with h1 | h2
      · exact ih (n / 10) (by omega) c h1
      · simp only [List.mem_singleton] at h2
        rw [h2]
        exact isDigitChar_digitChar (n % 10) (Nat.mod_lt n (by omega))

theorem natToDigitsAux_ne_nil (fuel n : Nat) : natToDigitsAux fuel n ≠ [] := by
  cases fuel with
  | zero => simp [natToDigitsAux]
  | succ fuel =>
    rw [natToDigitsAux]
    by_cases hn : n < 10
    · simp [hn]
    · rw [if_neg hn]
      simp

theorem digitsToNat_natToDigitsAux (fuel : Nat) :
    ∀ n : Nat, n ≤ fuel → digitsToNat (natToDigitsAux fuel n) = n := by
  induction fuel with
  | zero =>
    intro n h
    have hn : n = 0 := Nat.le_zero.mp h
    subst hn
    decide
  | succ fuel ih =>
    intro n h
    rw [natToDigitsAux]
    by_cases hn : n < 10
    · rw [if_pos hn]
      show digitsToNat [digitChar n] = n
      have h1 : digitsToNat [digitChar n] = 10 * 0 + charDigit (digitChar n) :=
        digitsToNat_append_one [] (digitChar n)
      rw [h1, charDigit_digitChar n hn]
      omega
    · rw [if_neg hn, digitsToNat_append_one, ih (n / 10) (by omega),
        charDigit_digitChar (n % 10) (Nat.mod_lt n (by omega))]
      omega

theorem natToDigits_digits (n : Nat) : ∀ c ∈ natToDigits n, isDigitChar c = true :=
  natToDigitsAux_digits n n (Nat.le_refl n)

theorem natToDigits_ne_nil (n : Nat) : natToDigits n ≠ [] := natToDigitsAux_ne_nil n n

theorem digitsToNat_natToDigits (n : Nat) : digitsToNat (natToDigits n) = n :=
  digitsToNat_natToDigitsAux n n (Nat.le_refl n)

theorem digitsToNat_zeros (k : Nat) (l : List Char) :
    digitsToNat (List.replicate k '0' ++ l) = digitsToNat l := by
  induction k with
  | zero => rfl
  | succ k ih =>
    simp only [List.replicate_succ, List.cons_append, digitsToNat, List.foldl_cons]
    have h0 : (0 : Nat) * 10 + charDigit '0' = 0 := by decide
    rw [h0]
    exact ih

theorem spanDigits_append (ds r : List Char) (hd : ∀ c ∈ ds, isDigitChar c = true)
    (hr : ∀ c, r.head? = some c → isDigitChar c = false) :
    spanDigits (ds ++ r) = (ds, r) := by
  induction ds with
  | nil =>
    cases r with
    | nil => rfl
    | cons c l =>
      have hc := hr c rfl
      simp [spanDigits, hc]
  | cons c l ih =>
    have hc := hd c (by simp)
    have hres := ih (fun x hx => hd x (by simp [hx]))
    simp [List.cons_append, spanDigits, hc, hres]

theorem paddedDigits_spec (n e : Nat) :
    (∀ c ∈ paddedDigits n e, isDigitChar c = true) ∧
    e + 1 ≤ (paddedDigits n e).length ∧
    digitsToNat (paddedDigits n e) = n := by
  rw [paddedDigits]
  by_cases h : (natToDigits n).length < e + 1
  · rw [if_pos h]
    refine ⟨?_, ?_, ?_⟩
    · intro c hc
      rcases List.mem_append.mp hc with h1 | h2
      · rw [List.eq_of_mem_replicate h1]
        decide
      · exact natToDigits_digits n c h2
    · have h2 := List.length_pos.mpr (natToDigits_ne_nil n)
      simp only [List.length_append, List.length_replicate]
      omega
    · rw [digitsToNat_zeros, digitsToNat_natToDigits]
  · rw [if_neg h]
    exact ⟨natToDigits_digits n, by omega, digitsToNat_natToDigits n⟩

theorem paddedDigits_ne_nil (n e : Nat) : paddedDigits n e ≠ [] := by
  have h := (paddedDigits_spec n e).2.1
  intro hcon
  rw [hcon] at h
  simp at h

theorem parseUnsigned_renderUnsigned (n e : Nat) :
    parseUnsigned (renderUnsigned n e) = some (n, e) := by
  obtain ⟨hdig, hlen, hval⟩ := paddedDigits_spec n e
  rw [renderUnsigned]
  by_cases he : e = 0
  · subst he
    rw [if_pos rfl]
    have hspan : spanDigits (paddedDigits n 0 ++ []) = (paddedDigits n 0, []) :=
      spanDigits_append _ [] hdig (fun c hc => by cases hc)
    rw [List.append_nil] at hspan
    rw [parseUnsigned]
    simp only [hspan]
    rw [if_neg (by simp [paddedDigits_ne_nil n 0])]
    rw [hval]
  · have hIlen : (paddedDigits n e).length - e ≥ 1 := by omega
    have hspan : spanDigits ((paddedDigits n e).take ((paddedDigits n e).length - e)
        ++ '.' :: (paddedDigits n e).drop ((paddedDigits n e).length - e)) =
        ((paddedDigits n e).take ((paddedDigits n e).length - e),
         '.' :: (paddedDigits n e).drop ((paddedDigits n e).length - e)) := by
      apply spanDigits_append
      · intro c hc
        exact hdig c (List.mem_of_mem_take hc)
      · intro c hc
        simp only [List.head?_cons, Option.some_inj] at hc
        rw [← hc]
        decide
    have htk : ((paddedDigits n e).take ((paddedDigits n e).length - e)).isEmpty = false := by
      rw [List.isEmpty_eq_false]
      intro hcon
      have := congrArg List.length hcon
      simp only [List.length_take, List.length_nil] at this
      omega
    have hall : ((paddedDigits n e).drop ((paddedDigits n e).length - e)).all isDigitChar = true := by
      rw [List.all_eq_true]
      intro c hc
      exact hdig c (List.mem_of_mem_drop hc)
    rw [if_neg he, parseUnsigned]
    simp only [hspan, htk, hall, Bool.not_false, Bool.true_or, Bool.and_self, if_true,
      reduceIte]
    rw [List.take_append_drop, hval]
    congr 2
    rw [List.length_drop]
    omega

theorem isSpace_false_of_digit (c : Char) (h : isDigitChar c = true) : isSpace c = false := by
  by_contra hcon
  rw [Bool.not_eq_false] at hcon
  simp only [isSpace, Bool.or_eq_true, decide_eq_true_eq] at hcon
  rcases hcon with ((((h1 | h1) | h1) | h1) | h1) | h1 <;>
    (subst h1; exact absurd h (by decide))

theorem digit_ne (c x : Char) (h : isDigitChar c = true) (hx : isDigitChar x = false) :
    c ≠ x := by
  intro hcon
  rw [hcon] at h
  rw [h] at hx
  cases hx

theorem headOk_of_all_nonspace (cs : List Char) (h : ∀ c ∈ cs, isSpace c = false) :
    headOk cs = true := by
  cases cs with
  | nil => rfl
  | cons c l => simp [headOk, h c (by simp)]

theorem lastOk_of_all_nonspace (cs : List Char) (h : ∀ c ∈ cs, isSpace c = false) :
    lastOk cs = true := by
  rw [lastOk]
  exact headOk_of_all_nonspace cs.reverse (fun c hc => h c (List.mem_reverse.mp hc))

theorem renderUnsigned_ne_nil (n e : Nat) : renderUnsigned n e ≠ [] := by
  rw [renderUnsigned]
  by_cases he : e = 0
  · rw [if_pos he]
    exact paddedDigits_ne_nil n e
  · rw [if_neg he]
    intro hcon
    rcases List.append_eq_nil.mp hcon with ⟨_, h2⟩
    cases h2

theorem renderUnsigned_mem (n e : Nat) :
    ∀ c ∈ renderUnsigned n e, isDigitChar c = true ∨ c = '.' := by
  intro c hc
  obtain ⟨hdig, _, _⟩ := paddedDigits_spec n e
  rw [renderUnsigned] at hc
  by_cases he : e = 0
  · rw [if_pos he] at hc
    exact Or.inl (hdig c hc)
  · rw [if_neg he] at hc
    rcases List.mem_append.mp hc with h1 | h2
    · exact Or.inl (hdig c (List.mem_of_mem_take h1))
    · rcases List.mem_cons.mp h2 with h3 | h4
      · exact Or.inr h3
      · exact Or.inl (hdig c (List.mem_of_mem_drop h4))

theorem renderNumeric_mem (m : Int) (e : Nat) :
    ∀ c ∈ renderNumeric m e, isDigitChar c = true ∨ c = '.' ∨ c = '-' := by
  intro c hc
  rw [renderNumeric] at hc
  by_cases hm : m < 0
  · rw [if_pos hm] at hc
    rcases List.mem_cons.mp hc with h1 | h2
    · exact Or.inr (Or.inr h1)
    · rcases renderUnsigned_mem m.natAbs e c h2 with h | h
      · exact Or.inl h
      · exact Or.inr (Or.inl h)
  · rw [if_neg hm] at hc
    rcases renderUnsigned_mem m.natAbs e c hc with h | h
    · exact Or.inl h
    · exact Or.inr (Or.inl h)

theorem renderNumeric_char_props (m : Int) (e : Nat) :
    ∀ c ∈ renderNumeric m e, isSpace c = false ∧ c ≠ ',' ∧ c ≠ '\n' ∧ c ≠ '"' := by
  intro c hc
  rcases renderNumeric_mem m e c hc with h | h | h
  · exact ⟨isSpace_false_of_digit c h, digit_ne c ',' h (by decide),
      digit_ne c '\n' h (by decide), digit_ne c '"' h (by decide)⟩
  · subst h
    refine ⟨by decide, by decide, by decide, by decide⟩
  · subst h
    refine ⟨by decide, by decide, by decide, by decide⟩

theorem renderNumeric_ne_nil (m : Int) (e : Nat) : renderNumeric m e ≠ [] := by
  rw [renderNumeric]
  by_cases hm : m < 0
  · rw [if_pos hm]
    simp
  · rw [if_neg hm]
    exact renderUnsigned_ne_nil m.natAbs e

theorem renderUnsigned_headDigit (n e : Nat) (c : Char)
    (h : (renderUnsigned n e).head? = some c) : isDigitChar c = true := by
  obtain ⟨hdig, hlen, _⟩ := paddedDigits_spec n e
  rw [renderUnsigned] at h
  by_cases he : e = 0
  · rw [if_pos he] at h
    cases hpd : paddedDigits n e with
    | nil => exact absurd hpd (paddedDigits_ne_nil n e)
    | cons a l =>
      rw [hpd] at h
      simp only [List.head?_cons, Option.some_inj] at h
      rw [← h]
      exact hdig a (by rw [hpd]; simp)
  · rw [if_neg he] at h
    cases htk : (paddedDigits n e).take ((paddedDigits n e).length - e) with
    | nil =>
      have := congrArg List.length htk
      simp only [List.length_take, List.length_nil] at this
      omega
    | cons a l =>
      rw [htk] at h
      simp only [List.cons_append, List.head?_cons, Option.some_inj] at h
      rw [← h]
      refine hdig a (List.mem_of_mem_take (by rw [htk]; simp))

theorem parseNumeric_renderNumeric (m : Int) (e : Nat) :
    parseNumeric (renderNumeric m e) = some (m, e) := by
  rw [renderNumeric]
  by_cases hm : m < 0
  · rw [if_pos hm]
    rw [parseNumeric]
    simp only [if_pos rfl, parseUnsigned_renderUnsigned, Option.map_some']
    have hval : -(m.natAbs : Int) = m := by omega
    rw [hval]
    simp
  · rw [if_neg hm]
    cases hh : renderUnsigned m.natAbs e with
    | nil => exact absurd hh (renderUnsigned_ne_nil m.natAbs e)
    | cons c l =>
      have hc : isDigitChar c = true :=
        renderUnsigned_headDigit m.natAbs e c (by rw [hh]; rfl)
      rw [parseNumeric]
      rw [if_neg (digit_ne c '-' hc (by decide)), if_neg (digit_ne c '+' hc (by decide))]
      rw [← hh, parseUnsigned_renderUnsigned]
      simp only [Option.map_some']
      have hval : ((m.natAbs : Int)) = m := by omega
      rw [hval]

theorem repairFields_eq_self (expectedCols : Nat) (fields : List (List Char))
    (h : fields.length = expectedCols) :
    repairFields expectedCols fields = fields := by
  rw [repairFields, if_neg (by omega), if_neg (by omega)]

theorem loadCell_renderCell (colName : List Char) (c : Cell) (h : cellWF colName c) :
    loadCell colName (renderCell c) = c := by
  cases c with
  | missing => rfl
  | str s =>
    obtain ⟨hne, hh, hl, _, _, _, hcost⟩ := h
    simp only [renderCell, loadCell, trimChars_eq_self s hh hl]
    rw [if_neg hne, if_neg hcost]
  | num m e =>
    have hcost : colName = costName := h
    have hhead := headOk_of_all_nonspace (renderNumeric m e)
      (fun c hc => (renderNumeric_char_props m e c hc).1)
    have hlast := lastOk_of_all_nonspace (renderNumeric m e)
      (fun c hc => (renderNumeric_char_props m e c hc).1)
    simp only [renderCell, loadCell, trimChars_eq_self (renderNumeric m e) hhead hlast]
    rw [if_neg (renderNumeric_ne_nil m e), if_pos hcost, parseNumeric_renderNumeric]

theorem zipWith_loadCell_renderCell :
    ∀ (headers : List (List Char)) (r : List Cell), r.length = headers.length →
      (∀ p ∈ List.zip headers r, cellWF p.1 p.2) →
      List.zipWith loadCell headers (r.map renderCell) = r := by
  intro headers
  induction headers with
  | nil =>
    intro r hlen _
    rw [List.length_nil] at hlen
    rw [List.length_eq_zero.mp hlen]
    rfl
  | cons h hs ih =>
    intro r hlen hwf
    cases r with
    | nil => cases hlen
    | cons c cs =>
      rw [List.map_cons, List.zipWith_cons_cons]
      rw [loadCell_renderCell h c (hwf (h, c) (by rw [List.zip_cons_cons]; simp))]
      rw [ih cs (by simpa using hlen)
        (fun p hp => hwf p (by rw [List.zip_cons_cons]; simp [hp]))]

theorem exists_fst_mem_zip :
    ∀ {α β : Type} (l1 : List α) (l2 : List β), l2.length ≤ l1.length →
      ∀ b ∈ l2, ∃ a, (a, b) ∈ List.zip l1 l2 := by
  intro α β l1
  induction l1 with
  | nil =>
    intro l2 hlen b hb
    rw [List.length_nil, Nat.le_zero] at hlen
    rw [List.length_eq_zero.mp hlen] at hb
    cases hb
  | cons a as ih =>
    intro l2 hlen b hb
    cases l2 with
    | nil => cases hb
    | cons x xs =>
      rcases List.mem_cons.mp hb with rfl | hxs
      · exact ⟨a, by rw [List.zip_cons_cons]; simp⟩
      · obtain ⟨a2, ha2⟩ := ih xs (by simpa using hlen) b hxs
        exact ⟨a2, by rw [List.zip_cons_cons]; simp [ha2]⟩

theorem renderCell_props (colName : List Char) (c : Cell) (h : cellWF colName c) :
    headOk (renderCell c) = true ∧ lastOk (renderCell c) = true ∧
    '"' ∉ renderCell c ∧ ',' ∉ renderCell c ∧ '\n' ∉ renderCell c := by
  cases c with
  | missing => refine ⟨rfl, rfl, by simp [renderCell], by simp [renderCell], by simp [renderCell]⟩
  | str s =>
    obtain ⟨_, hh, hl, hq, hc, hn, _⟩ := h
    exact ⟨hh, hl, hq, hc, hn⟩
  | num m e =>
    refine ⟨headOk_of_all_nonspace _ (fun c hc => (renderNumeric_char_props m e c hc).1),
      lastOk_of_all_nonspace _ (fun c hc => (renderNumeric_char_props m e c hc).1), ?_, ?_, ?_⟩
    · intro hmem
      exact absurd rfl (renderNumeric_char_props m e _ hmem).2.2.2
    · intro hmem
      exact absurd rfl (renderNumeric_char_props m e _ hmem).2.1
    · intro hmem
      exact absurd rfl (renderNumeric_char_props m e _ hmem).2.2.1

theorem line_facts (segs : List (List Char)) (hne : segs ≠ [])
    (hprops : ∀ s ∈ segs, headOk s = true ∧ lastOk s = true ∧ '"' ∉ s ∧ ',' ∉ s ∧ '\n' ∉ s) :
    headOk (intercalateChar ',' segs) = true ∧
    lastOk (intercalateChar ',' segs) = true ∧
    '"' ∉ intercalateChar ',' segs ∧
    '\n' ∉ intercalateChar ',' segs ∧
    splitOnChar ',' (intercalateChar ',' segs) = segs := by
  obtain ⟨x, rest, rfl⟩ : ∃ x rest, segs = x :: rest := by
    cases segs with
    | nil => cases hne rfl
    | cons x rest => exact ⟨x, rest, rfl⟩
  refine ⟨headOk_intercalate ',' (by decide) x rest (hprops x (by simp)).1,
    lastOk_intercalate ',' (by decide) _ (by simp) (fun s hs => (hprops s hs).2.1),
    not_mem_intercalate ',' '"' (by decide) _ (fun s hs => (hprops s hs).2.2.1),
    not_mem_intercalate ',' '\n' (by decide) _ (fun s hs => (hprops s hs).2.2.2.2),
    splitOnChar_intercalate ',' _ (by simp) (fun s hs => (hprops s hs).2.2.2.1)⟩

theorem parseHeader_roundtrip (headers : List (List Char)) (hne : headers ≠ [])
    (hwf : ∀ h ∈ headers, headerWF h) :
    parseHeaderChars (intercalateChar ',' headers) = headers := by
  have hf := line_facts headers hne (fun s hs => (hwf s hs))
  rw [parseHeaderChars, trimChars_eq_self _ hf.1 hf.2.1, stripLineQuotes_id _ hf.2.2.1,
    hf.2.2.2.2]
  have hid : headers.map trimChars = headers.map id :=
    List.map_congr_left (fun h hh => by rw [trimChars_eq_self h (hwf h hh).1 (hwf h hh).2.1]; rfl)
  rw [hid, List.map_id]

theorem parseRow_roundtrip (headers : List (List Char)) (r : List Cell)
    (hN : 2 ≤ headers.length) (hlen : r.length = headers.length)
    (hwf : ∀ p ∈ List.zip headers r, cellWF p.1 p.2) :
    List.zipWith loadCell headers
      (parseDataLine headers.length (intercalateChar ',' (r.map renderCell))) = r := by
  have hrne : r.map renderCell ≠ [] := by
    intro hcon
    have h2 := congrArg List.length hcon
    simp only [List.length_map, List.length_nil] at h2
    omega
  have hprops : ∀ s ∈ r.map renderCell,
      headOk s = true ∧ lastOk s = true ∧ '"' ∉ s ∧ ',' ∉ s ∧ '\n' ∉ s := by
    intro s hs
    obtain ⟨c, hc, rfl⟩ := List.mem_map.mp hs
    obtain ⟨colName, hzip⟩ := exists_fst_mem_zip headers r (by omega) c hc
    exact renderCell_props colName c (hwf _ hzip)
  have hf := line_facts (r.map renderCell) hrne hprops
  rw [parseDataLine, trimChars_eq_self _ hf.1 hf.2.1, stripLineQuotes_id _ hf.2.2.1,
    hf.2.2.2.2, repairFields_eq_self _ _ (by simp [hlen]),
    zipWith_loadCell_renderCell headers r hlen hwf]


theorem intercalate_ne_nil_of_two (sep : Char) (x y : List Char) (rest : List (List Char)) :
    intercalateChar sep (x :: y :: rest) ≠ [] := by
  rw [intercalateChar]
  intro h
  rcases List.append_eq_nil.mp h with ⟨_, h2⟩
  cases h2

theorem intercalate_ne_nil (sep : Char) :
    ∀ segs : List (List Char), segs ≠ [] → (∀ s ∈ segs, s ≠ []) →
      intercalateChar sep segs ≠ [] := by
  intro segs
  induction segs with
  | nil => intro h; cases h rfl
  | cons x rest ih =>
    intro _ hall2
    cases rest with
    | nil =>
      rw [intercalateChar]
      exact hall2 x (by simp)
    | cons y rest2 =>
      rw [intercalateChar]
      intro hcon
      rcases List.append_eq_nil.mp hcon with ⟨_, h2⟩
      cases h2

theorem headOk_intercalate_ne (sep : Char) (x : List Char) (rest : List (List Char))
    (hx : x ≠ []) (hh : headOk x = true) :
    headOk (intercalateChar sep (x :: rest)) = true := by
  cases rest with
  | nil => exact hh
  | cons y rest2 =>
    rw [intercalateChar, headOk_append _ _ hx]
    exact hh

theorem lastOk_intercalate_ne (sep : Char) :
    ∀ segs : List (List Char), segs ≠ [] → (∀ s ∈ segs, s ≠ [] ∧ lastOk s = true) →
      lastOk (intercalateChar sep segs) = true := by
  intro segs
  induction segs with
  | nil => intro h; cases h rfl
  | cons x rest ih =>
    intro _ hall2
    cases rest with
    | nil =>
      rw [intercalateChar]
      exact (hall2 x (by simp)).2
    | cons y rest2 =>
      have hI : intercalateChar sep (y :: rest2) ≠ [] :=
        intercalate_ne_nil sep (y :: rest2) (by simp)
          (fun s hs => (hall2 s (List.mem_cons_of_mem x hs)).1)
      rw [intercalateChar, lastOk_append x _ (by simp), lastOk_cons sep _ hI]
      exact ih (by simp) (fun s hs => hall2 s (List.mem_cons_of_mem x hs))

/-- C7 (amended): re-loading the exported text of a canonical table
through the same pipeline reproduces the table, provided every exported
row is already full width and, additionally, no header name or cell
contains a double-quote character (otherwise the line-level quote
stripping of `load_data` mangles the first and last fields), nor a
comma, newline or surrounding whitespace, with string/numeric cells
agreeing with their columns (all of which hold for canonical load
output).  `WFTable` packages these conditions; full width makes the
repair step a no-op, which the proof (`repairFields_eq_self`) uses. -/
theorem claimC7 (t : Table) (hwf : WFTable t) : loadChars (exportChars t) = t := by
  obtain ⟨hN, hhead, hrows⟩ := hwf
  have hhne : t.headers ≠ [] := by
    intro hcon
    rw [hcon] at hN
    simp at hN
  have hHf := line_facts t.headers hhne (fun s hs => hhead s hs)
  have hrowf : ∀ line ∈ t.rows.map (fun r => intercalateChar ',' (r.map renderCell)),
      headOk line = true ∧ lastOk line = true ∧ '\n' ∉ line ∧ line ≠ [] := by
    intro line hline
    obtain ⟨r, hr, rfl⟩ := List.mem_map.mp hline
    have hlen := (hrows r hr).1
    have hwfr := (hrows r hr).2
    have hrne : r.map renderCell ≠ [] := by
      intro hcon
      have h2 := congrArg List.length hcon
      simp only [List.length_map, List.length_nil] at h2
      omega
    have hprops : ∀ s ∈ r.map renderCell,
        headOk s = true ∧ lastOk s = true ∧ '"' ∉ s ∧ ',' ∉ s ∧ '\n' ∉ s := by
      intro s hs
      obtain ⟨c, hc, rfl⟩ := List.mem_map.mp hs
      obtain ⟨colName, hzip⟩ := exists_fst_mem_zip t.headers r (by omega) c hc
      exact renderCell_props colName c (hwfr _ hzip)
    have hf := line_facts (r.map renderCell) hrne hprops
    have hlne : intercalateChar ',' (r.map renderCell) ≠ [] := by
      rcases hm : r.map renderCell with _ | ⟨a, rest⟩
      · exact absurd hm hrne
      · cases rest with
        | nil =>
          have h2 := congrArg List.length hm
          simp only [List.length_map, List.length_cons, List.length_nil] at h2
          omega
        | cons b rest2 => exact intercalate_ne_nil_of_two ',' a b rest2
    exact ⟨hf.1, hf.2.1, hf.2.2.2.1, hlne⟩
  have hhlne : intercalateChar ',' t.headers ≠ [] := by
    rcases hm : t.headers with _ | ⟨a, rest⟩
    · exact absurd hm hhne
    · cases rest with
      | nil =>
        rw [hm] at hN
        simp at hN
      | cons b rest2 => exact intercalate_ne_nil_of_two ',' a b rest2
  have hall : ∀ line ∈ (intercalateChar ',' t.headers) ::
      t.rows.map (fun r => intercalateChar ',' (r.map renderCell)),
      headOk line = true ∧ lastOk line = true ∧ '\n' ∉ line ∧ line ≠ [] := by
    intro line hline
    rcases List.mem_cons.mp hline with rfl | h2
    · exact ⟨hHf.1, hHf.2.1, hHf.2.2.2.1, hhlne⟩
    · exact hrowf line h2
  have htrim : trimChars (exportChars t) =
      intercalateChar '\n' ((intercalateChar ',' t.headers) ::
        t.rows.map (fun r => intercalateChar ',' (r.map renderCell))) := by
    rw [exportChars, trimChars_append_newline]
    exact trimChars_eq_self _
      (headOk_intercalate_ne '\n' _ _ hhlne (hall _ (by simp)).1)
      (lastOk_intercalate_ne '\n' _ (by simp)
        (fun s hs => ⟨(hall s hs).2.2.2, (hall s hs).2.1⟩))
  have hsplit : splitOnChar '\n' (trimChars (exportChars t)) =
      (intercalateChar ',' t.headers) ::
        t.rows.map (fun r => intercalateChar ',' (r.map renderCell)) := by
    rw [htrim]
    exact splitOnChar_intercalate '\n' _ (by simp) (fun s hs => (hall s hs).2.2.1)
  have hparsehead : parseHeaderChars (intercalateChar ',' t.headers) = t.headers :=
    parseHeader_roundtrip t.headers hhne hhead
  rcases t with ⟨headers, rows⟩
  simp only at hsplit hparsehead hrows hN
  simp only [loadChars, hsplit, List.headD_cons, List.drop_succ_cons, List.drop_zero,
    hparsehead, List.map_map]
  rw [Table.mk.injEq]
  refine ⟨rfl, ?_⟩
  have hmap : rows.map ((fun line => List.zipWith loadCell headers
        (parseDataLine headers.length line)) ∘
      (fun r => intercalateChar ',' (r.map renderCell))) = rows.map id := by
    apply List.map_congr_left
    intro r hr
    show List.zipWith loadCell headers
        (parseDataLine headers.length (intercalateChar ',' (r.map renderCell))) = r
    exact parseRow_roundtrip headers r hN (hrows r hr).1 (hrows r hr).2
  rw [hmap, List.map_id]

theorem claimC7_witness : loadChars (exportChars exTable3) = exTable3 :=
  claimC7 exTable3 (by decide)

/-- C7 (counterexample): the round trip fails as claimed even when no
exported row needs repair.  Loading `A,B` over the quote-wrapped line
`""v,w""` yields the cells `"v` and `w"`; the export writes the line
`"v,w"` (second conjunct), which splits into exactly 2 = N fields after
quote stripping (third conjunct: no repair is needed), yet re-loading
strips the surrounding quotes and produces the different cells `v` and
`w` (first conjunct). -/
theorem claimC7_counterexample :
    loadChars (exportChars (loadData "A,B\n\"\"v,w\"\"")) ≠ loadData "A,B\n\"\"v,w\"\"" ∧
    exportChars (loadData "A,B\n\"\"v,w\"\"") = String.data "A,B\n\"v,w\"\n" ∧
    (splitOnChar ','
        (stripLineQuotes (trimChars (String.data "\"v,w\"")))).length =
      (loadData "A,B\n\"\"v,w\"\"").headers.length := by decide

end CloudTag
